import Mathlib

/-!
Shallow embedding of `src/ntm/addressing.py` (NTM addressing mechanism).

The Python code computes with numpy float arrays; we model the numbers by an
arbitrary linear ordered field `K` (theorems are then stated at `K = ℝ`).
The transcendental functions `np.sqrt` and `np.exp` are passed explicitly as
function parameters `rsqrt`, `rexp` so that every definition stays computable;
the real-number theorems instantiate them with `Real.sqrt` and `Real.exp`.
Vectors are lists; memory is a list of row vectors.
-/

namespace DiffMem

/-- Inner product `np.dot(a, b)` of two 1-D vectors: sum of elementwise products. -/
def dot {K : Type} [CommRing K] (a b : List K) : K :=
  (List.zipWith (fun x y => x * y) a b).sum

/-- The literal constant `1e-20` appearing in `cosine_sim`. -/
def eps {K : Type} [Field K] : K := 1 / 10 ^ 20

/-- Embedding of `cosine_sim(a_t, b_t)`:
`num = np.dot(a_t, b_t)`; `anorm = np.sqrt(np.sum(a_t*a_t))`;
`bnorm = np.sqrt(np.sum(b_t*b_t))`; `den2 = (anorm * bnorm) + 1e-20`;
returns `num / den2`.  `np.sum(v*v) = dot v v`. -/
def cosine_sim {K : Type} [Field K] (rsqrt : K → K) (a_t b_t : List K) : K :=
  let num := dot a_t b_t
  let anorm := rsqrt (dot a_t a_t)
  let bnorm := rsqrt (dot b_t b_t)
  let den2 := anorm * bnorm + eps
  num / den2

/-- The list `l` built by the loop in `content_focus`: one score
`K(row) = np.exp(b_t * cosine_sim(row, k_t))` per memory row.  In the code the
key is an N-by-1 column, so `K(row)` is a length-1 array and `K(row)[0]`
extracts its single scalar entry; here we model that scalar directly (the
shape-level behaviour of the `[0]` subscript is modelled separately by
`content_focus_np` below). -/
def content_scores {K : Type} [Field K] (rsqrt rexp : K → K)
    (k_t : List K) (b_t : K) (mem : List (List K)) : List K :=
  mem.map (fun row => rexp (b_t * cosine_sim rsqrt row k_t))

/-- Embedding of `content_focus(k_t, b_t, mem)`: the scores `sims`, their sum
`d = np.sum(sims)`, and the normalized vector `n / d` (elementwise division). -/
def content_focus {K : Type} [Field K] (rsqrt rexp : K → K)
    (k_t : List K) (b_t : K) (mem : List (List K)) : List K :=
  let sims := content_scores rsqrt rexp k_t b_t mem
  let d := sims.sum
  sims.map (fun x => x / d)

/-- The `restrictionList` built in `shift`: row `i` is `backward = [1,0,0]` for
`i = 0`, `same = [0,1,0]` for `i = 1`, `forward = [0,0,1]` for `i = N-1`, and
`null = [0,0,0]` otherwise (the branches are tested in this order). -/
def restrictionList {K : Type} [CommRing K] (N : Nat) : List (List K) :=
  (List.range N).map (fun i =>
    if i = 0 then [1, 0, 0]
    else if i = 1 then [0, 1, 0]
    else if i = N - 1 then [0, 0, 1]
    else [0, 0, 0])

/-- The product `np.dot(rT, s_t)` of the restriction matrix with the length-3
shift kernel, performed by `shift` when `N >= 3`. -/
def restricted_kernel {K : Type} [CommRing K] (N : Nat) (s_t : List K) : List K :=
  (restrictionList N).map (fun row => dot row s_t)

/-- Python's `(i - j) % N`: mathematical (Euclidean) modulus, always in
`[0, N)` for `N > 0`.  Lean's `Int.emod` has the same convention. -/
def modIdx (i j N : Nat) : Nat := (((i : Int) - (j : Int)) % (N : Int)).toNat

/-- Embedding of `shift(w_gt, s_t)`: `N = w_gt.size`; if `N >= 3` the kernel is
replaced by `np.dot(rT, s_t)`; then the double loop computes
`sums[i] = sum_j w_gt[j] * s_t[(i - j) % N]`. -/
def shift {K : Type} [CommRing K] (w_gt s_t : List K) : List K :=
  let N := w_gt.length
  let sEff := if 3 ≤ N then restricted_kernel N s_t else s_t
  (List.range N).map (fun i =>
    ((List.range N).map (fun j => w_gt.getD j 0 * sEff.getD (modIdx i j N) 0)).sum)

/-- Embedding of `location_focus(g_t, s_t, gamma_t, w_old, w_content)`: the
only active line is the interpolation
`w_gt = g_t * w_content + (1-g_t) * w_old` (elementwise on equal-length
vectors); the shift / sharpen / normalize steps are commented out in the
source, so the function returns `w_gt` directly.  `s_t` and `gamma_t` are
accepted and ignored, as in the source. -/
def location_focus {K : Type} [CommRing K] (g_t : K) (s_t : List K) (gamma_t : K)
    (w_old w_content : List K) : List K :=
  List.zipWith (fun c o => g_t * c + (1 - g_t) * o) w_content w_old

/-- Embedding of `create_weights(k_t, b_t, g_t, s_t, gamma_t, w_old, mem)`:
`w_content = content_focus(k_t, b_t, mem)`; returns
`(location_focus(g_t, s_t, gamma_t, w_old, w_content), w_content)`. -/
def create_weights {K : Type} [Field K] (rsqrt rexp : K → K)
    (k_t : List K) (b_t g_t : K) (s_t : List K) (gamma_t : K)
    (w_old : List K) (mem : List (List K)) : List K × List K :=
  let w_content := content_focus rsqrt rexp k_t b_t mem
  (location_focus g_t s_t gamma_t w_old w_content, w_content)

/-- Spec-side description of the restricted kernel (for claim C2): entry `s[0]`
at position 0, `s[1]` at position 1, `s[2]` at position `N-1`, and 0 at every
other position.  Written from the spec's words, to be compared with
`restricted_kernel`. -/
def kernel_effective_spec {K : Type} [CommRing K] (N : Nat) (s : List K) : List K :=
  (List.range N).map (fun i =>
    if i = 0 then s.getD 0 0
    else if i = 1 then s.getD 1 0
    else if i = N - 1 then s.getD 2 0
    else 0)

/-- Spec-side circular convolution (for claim C2):
`shifted[i] = sum_j (weights[j] * ker[(i - j) mod N])`.  Written from the
spec's words. -/
def circ_conv_spec {K : Type} [CommRing K] (w ker : List K) : List K :=
  (List.range w.length).map (fun i =>
    ((List.range w.length).map (fun j => w.getD j 0 * ker.getD (modIdx i j w.length) 0)).sum)

/-!
Shape-level model for claim C10.  numpy values are dynamically either scalars
or 1-D arrays; subscripting a scalar with `[0]` raises `IndexError` (modelled
by `none`), subscripting an array succeeds iff it has an element at index 0.
The key `k_t` may be passed either as a plain 1-D vector or as an N-by-1
column; `np.dot`'s result shape depends on that choice.
-/

/-- A numpy value at the granularity C10 needs: a scalar or a 1-D array. -/
inductive NpVal (K : Type) where
  | scalar : K → NpVal K
  | arr : List K → NpVal K

/-- The two ways the key can be passed to `content_focus`: a plain 1-D vector,
or an N-by-1 column (a list of rows). -/
inductive NpKey (K : Type) where
  | oneD : List K → NpKey K
  | col : List (List K) → NpKey K

/-- Elementwise application of a scalar function, shape-preserving (as
`np.exp`, scalar multiplication and scalar division broadcast in numpy). -/
def npMap {K : Type} (f : K → K) : NpVal K → NpVal K
  | NpVal.scalar x => NpVal.scalar (f x)
  | NpVal.arr l => NpVal.arr (l.map f)

/-- The shape of `np.dot(u, k)`: a 1-D `u` dotted with a 1-D key gives a
scalar; dotted with an N-by-1 column it gives the length-1 array
`[sum_i u_i * k_i0]`. -/
def npDot {K : Type} [CommRing K] (u : List K) : NpKey K → NpVal K
  | NpKey.oneD v => NpVal.scalar (dot u v)
  | NpKey.col m => NpVal.arr [(List.zipWith (fun x row => x * row.getD 0 0) u m).sum]

/-- The scalar `np.sum(k * k)` for either key shape (elementwise square, then
sum over all entries). -/
def npNormSq {K : Type} [CommRing K] : NpKey K → K
  | NpKey.oneD v => dot v v
  | NpKey.col m => (m.map (fun row => dot row row)).sum

/-- Shape-aware `cosine_sim(u, k_t)`: the denominator is a scalar, and the
division broadcasts over the shape of the numerator `np.dot(u, k_t)`. -/
def cosine_sim_np {K : Type} [Field K] (rsqrt : K → K) (a_t : List K) (b_t : NpKey K) :
    NpVal K :=
  let num := npDot a_t b_t
  let anorm := rsqrt (dot a_t a_t)
  let bnorm := rsqrt (npNormSq b_t)
  let den2 := anorm * bnorm + eps
  npMap (fun x => x / den2) num

/-- The `[0]` subscript: fails (IndexError) on a scalar, and on an array
returns its entry at index 0 when one exists. -/
def npIndex0 {K : Type} : NpVal K → Option K
  | NpVal.scalar _ => none
  | NpVal.arr l => l.get? 0

/-- Shape-aware embedding of `content_focus`: each loop iteration computes
`K(row)[0] = (np.exp(b_t * cosine_sim(row, k_t)))[0]`, which can fail; the
loop as a whole fails iff some iteration fails.  On success the scores are
normalized exactly as in `content_focus`. -/
def content_focus_np {K : Type} [Field K] (rsqrt rexp : K → K)
    (k_t : NpKey K) (b_t : K) (mem : List (List K)) : Option (List K) :=
  (mem.mapM (fun row =>
      npIndex0 (npMap (fun c => rexp (b_t * c)) (cosine_sim_np rsqrt row k_t)))).map
    (fun sims => sims.map (fun x => x / sims.sum))

/-! Helper lemmas. -/

lemma sum_map_div {K : Type} [DivisionRing K] (l : List K) (d : K) :
    (l.map (fun x => x / d)).sum = l.sum / d := by
  induction l with
  | nil => simp
  | cons a t ih => simp [ih, add_div]

lemma zipWith_const_left {α β : Type} :
    ∀ (l : List α) (l2 : List β), l.length = l2.length →
      List.zipWith (fun c _ => c) l l2 = l
  | [], [], _ => rfl
  | [], _ :: _, h => by simp at h
  | _ :: _, [], h => by simp at h
  | a :: t, _ :: t2, h => by
    simp only [List.zipWith_cons_cons, List.cons.injEq, true_and]
    exact zipWith_const_left t t2 (by simpa using h)

lemma zipWith_const_right {α β : Type} :
    ∀ (l : List α) (l2 : List β), l.length = l2.length →
      List.zipWith (fun _ o => o) l l2 = l2
  | [], [], _ => rfl
  | [], _ :: _, h => by simp at h
  | _ :: _, [], h => by simp at h
  | a :: t, _ :: t2, h => by
    simp only [List.zipWith_cons_cons, List.cons.injEq, true_and]
    exact zipWith_const_right t t2 (by simpa using h)

/-! Claim theorems. -/

/-- C8: `create_weights` is exactly the composition of `content_focus` and
`location_focus`, returning the final weights paired with the intermediate
content weights; it performs no further computation. -/
theorem create_weights_compose (rsqrt rexp : ℝ → ℝ) (k_t : List ℝ) (b_t g_t : ℝ)
    (s_t : List ℝ) (gamma_t : ℝ) (w_old : List ℝ) (mem : List (List ℝ)) :
    create_weights rsqrt rexp k_t b_t g_t s_t gamma_t w_old mem =
      (location_focus g_t s_t gamma_t w_old (content_focus rsqrt rexp k_t b_t mem),
       content_focus rsqrt rexp k_t b_t mem) := rfl

/-- C4: `location_focus` returns exactly
`gate * content_weights + (1 - gate) * prev_weights` (shift, sharpen and
normalize are bypassed); with gate 1 it returns the content weights, with
gate 0 the previous weights, and with gate 1/2 the elementwise average. -/
theorem location_focus_gated (g_t : ℝ) (s_t : List ℝ) (gamma_t : ℝ)
    (w_old w_content : List ℝ) (h : w_old.length = w_content.length) :
    location_focus g_t s_t gamma_t w_old w_content =
        List.zipWith (fun x y => x + y) (w_content.map (fun c => g_t * c))
          (w_old.map (fun o => (1 - g_t) * o)) ∧
    location_focus 1 s_t gamma_t w_old w_content = w_content ∧
    location_focus 0 s_t gamma_t w_old w_content = w_old ∧
    location_focus (1 / 2) s_t gamma_t w_old w_content =
        List.zipWith (fun c o => (c + o) / 2) w_content w_old := by
  refine ⟨?_, ?_, ?_, ?_⟩
  · rw [List.zipWith_map]
    rfl
  · show List.zipWith (fun c o => (1 : ℝ) * c + (1 - 1) * o) w_content w_old = w_content
    have he : (fun c o => (1 : ℝ) * c + (1 - 1) * o) = fun c _ => c := by
      funext c o; ring
    rw [he]
    exact zipWith_const_left _ _ h.symm
  · show List.zipWith (fun c o => (0 : ℝ) * c + (1 - 0) * o) w_content w_old = w_old
    have he : (fun c o => (0 : ℝ) * c + (1 - 0) * o) = fun _ o => o := by
      funext c o; ring
    rw [he]
    exact zipWith_const_right _ _ h.symm
  · show List.zipWith (fun c o => (1 : ℝ) / 2 * c + (1 - 1 / 2) * o) w_content w_old = _
    have he : (fun c o => (1 : ℝ) / 2 * c + (1 - 1 / 2) * o) =
        fun c o => (c + o) / 2 := by
      funext c o; ring
    rw [he]

/-- Witness for C4 at gate 1/3, prev [1, 0], content [0, 1]. -/
theorem location_focus_gated_witness :
    ([1, 0] : List ℝ).length = ([0, 1] : List ℝ).length ∧
    (location_focus (1 / 3 : ℝ) [1] 2 [1, 0] [0, 1] =
        List.zipWith (fun x y => x + y) (([0, 1] : List ℝ).map (fun c => (1 / 3 : ℝ) * c))
          (([1, 0] : List ℝ).map (fun o => (1 - 1 / 3 : ℝ) * o)) ∧
      location_focus (1 : ℝ) [1] 2 [1, 0] [0, 1] = [0, 1] ∧
      location_focus (0 : ℝ) [1] 2 [1, 0] [0, 1] = [1, 0] ∧
      location_focus ((1 : ℝ) / 2) [1] 2 [1, 0] [0, 1] =
        List.zipWith (fun c o => (c + o) / 2) ([0, 1] : List ℝ) [1, 0]) :=
  ⟨rfl, location_focus_gated (1 / 3) [1] 2 [1, 0] [0, 1] rfl⟩

/-- C7: `cosine_sim` returns `dot(a,b) / (sqrt(dot(a,a)) * sqrt(dot(b,b)) + 1e-20)`,
and the `1e-20` term keeps the denominator strictly positive (hence nonzero)
for every pair of vectors, including zero vectors. -/
theorem cosine_sim_formula (a_t b_t : List ℝ) (h : a_t.length = b_t.length) :
    cosine_sim Real.sqrt a_t b_t =
        dot a_t b_t / (Real.sqrt (dot a_t a_t) * Real.sqrt (dot b_t b_t) + 1 / 10 ^ 20) ∧
    0 < Real.sqrt (dot a_t a_t) * Real.sqrt (dot b_t b_t) + 1 / 10 ^ 20 := by
  constructor
  · rfl
  · positivity

/-- Witness for C7 at the zero vector paired with [3, 4]. -/
theorem cosine_sim_formula_witness :
    ([0, 0] : List ℝ).length = ([3, 4] : List ℝ).length ∧
    (cosine_sim Real.sqrt ([0, 0] : List ℝ) [3, 4] =
        dot ([0, 0] : List ℝ) [3, 4] /
          (Real.sqrt (dot ([0, 0] : List ℝ) [0, 0]) *
            Real.sqrt (dot ([3, 4] : List ℝ) [3, 4]) + 1 / 10 ^ 20) ∧
      0 < Real.sqrt (dot ([0, 0] : List ℝ) [0, 0]) *
            Real.sqrt (dot ([3, 4] : List ℝ) [3, 4]) + 1 / 10 ^ 20) :=
  ⟨rfl, cosine_sim_formula [0, 0] [3, 4] rfl⟩

/-- C6: on a non-empty memory of rows matching the key's length,
`content_focus` returns the softmax of the scaled cosine similarities: entry
`i` is `exp(b * cos(r_i, k)) / sum_j exp(b * cos(r_j, k))`. -/
theorem content_focus_softmax (k_t : List ℝ) (b_t : ℝ) (mem : List (List ℝ))
    (hmem : mem ≠ []) (hrows : ∀ r ∈ mem, r.length = k_t.length) :
    content_focus Real.sqrt Real.exp k_t b_t mem =
      mem.map (fun r => Real.exp (b_t * cosine_sim Real.sqrt r k_t) /
        (mem.map (fun r2 => Real.exp (b_t * cosine_sim Real.sqrt r2 k_t))).sum) := by
  simp only [content_focus, content_scores, List.map_map]
  rfl

/-- Witness for C6 on a one-row memory. -/
theorem content_focus_softmax_witness :
    ([[2]] : List (List ℝ)) ≠ [] ∧ (∀ r ∈ ([[2]] : List (List ℝ)), r.length = ([1] : List ℝ).length) ∧
    content_focus Real.sqrt Real.exp ([1] : List ℝ) 5 [[2]] =
      ([[2]] : List (List ℝ)).map (fun r => Real.exp (5 * cosine_sim Real.sqrt r [1]) /
        (([[2]] : List (List ℝ)).map
          (fun r2 => Real.exp (5 * cosine_sim Real.sqrt r2 [1]))).sum) :=
  ⟨by simp, by simp, content_focus_softmax [1] 5 [[2]] (by simp) (by simp)⟩

/-- C5 (amended): with an empty memory the normalizing sum is zero and the
division is unguarded, but the result is the empty vector: no entries (hence
no special values) are produced, and no error is raised. -/
theorem content_focus_empty (k_t : List ℝ) (b_t : ℝ) :
    content_focus Real.sqrt Real.exp k_t b_t [] = [] ∧
    (content_scores Real.sqrt Real.exp k_t b_t []).sum = 0 := by
  constructor <;> rfl

/-- Counterexample for C5 as stated: at an empty memory the returned vector is
empty, so no entry of it exists at all — in particular `content_focus` does
not produce NaN/Inf output entries there. -/
theorem content_focus_empty_cex :
    content_focus Real.sqrt Real.exp ([1] : List ℝ) 1 [] = [] ∧
    ¬ ∃ x : ℝ, x ∈ content_focus Real.sqrt Real.exp ([1] : List ℝ) 1 [] := by
  constructor
  · rfl
  · intro hx
    obtain ⟨x, hx⟩ := hx
    simp [content_focus, content_scores] at hx

/-- C1: for any key, strength `b >= 0` and non-empty memory, `content_focus`
returns a probability vector (entries non-negative, summing to exactly 1 in
the real-number model), and for strength 0 it is the uniform vector with
every entry `1/M`. -/
theorem content_focus_distribution (k_t : List ℝ) (b_t : ℝ) (mem : List (List ℝ))
    (hb : 0 ≤ b_t) (hmem : mem ≠ []) :
    (∀ x ∈ content_focus Real.sqrt Real.exp k_t b_t mem, 0 ≤ x) ∧
    (content_focus Real.sqrt Real.exp k_t b_t mem).sum = 1 ∧
    (b_t = 0 → content_focus Real.sqrt Real.exp k_t b_t mem =
        List.replicate mem.length (1 / (mem.length : ℝ))) := by
  have hpos : ∀ x ∈ content_scores Real.sqrt Real.exp k_t b_t mem, 0 < x := by
    intro x hx
    simp only [content_scores, List.mem_map] at hx
    obtain ⟨r, hr, rfl⟩ := hx
    exact Real.exp_pos _
  have hne : content_scores Real.sqrt Real.exp k_t b_t mem ≠ [] := by
    simp [content_scores, hmem]
  have hsum : 0 < (content_scores Real.sqrt Real.exp k_t b_t mem).sum :=
    List.sum_pos _ hpos hne
  refine ⟨?_, ?_, ?_⟩
  · intro x hx
    simp only [content_focus, List.mem_map] at hx
    obtain ⟨y, hy, rfl⟩ := hx
    exact le_of_lt (div_pos (hpos y hy) hsum)
  · show (List.map _ _).sum = 1
    rw [sum_map_div]
    exact div_self (ne_of_gt hsum)
  · intro hb0
    subst hb0
    have hscores : content_scores Real.sqrt Real.exp k_t 0 mem =
        List.replicate mem.length 1 := by
      simp [content_scores]
    have hs : (List.replicate mem.length (1 : ℝ)).sum = (mem.length : ℝ) := by
      simp
    simp only [content_focus, hscores, hs, List.map_replicate]

/-- Witness for C1 on a two-row memory at strength 0. -/
theorem content_focus_distribution_witness :
    (0 : ℝ) ≤ 0 ∧ ([[1], [2]] : List (List ℝ)) ≠ [] ∧
    ((∀ x ∈ content_focus Real.sqrt Real.exp ([1] : List ℝ) 0 [[1], [2]], 0 ≤ x) ∧
      (content_focus Real.sqrt Real.exp ([1] : List ℝ) 0 [[1], [2]]).sum = 1 ∧
      ((0 : ℝ) = 0 → content_focus Real.sqrt Real.exp ([1] : List ℝ) 0 [[1], [2]] =
        List.replicate ([[1], [2]] : List (List ℝ)).length
          (1 / ((([[1], [2]] : List (List ℝ)).length : ℕ) : ℝ)))) :=
  ⟨le_refl 0, by simp, content_focus_distribution [1] 0 [[1], [2]] (le_refl 0) (by simp)⟩

lemma getD_map_range {α : Type} (f : ℕ → α) (d : α) {i N : ℕ} (hi : i < N) :
    ((List.range N).map f).getD i d = f i := by
  rw [List.getD_eq_getElem?_getD, List.getElem?_map, List.getElem?_range hi]
  rfl

lemma restricted_kernel_eq_spec {K : Type} [CommRing K] (N : ℕ) (s : List K)
    (hs : s.length = 3) :
    restricted_kernel N s = kernel_effective_spec N s := by
  obtain ⟨a, b, c, rfl⟩ := List.length_eq_three.mp hs
  simp only [restricted_kernel, restrictionList, kernel_effective_spec, List.map_map]
  apply List.map_congr_left
  intro i hi
  by_cases h0 : i = 0
  · simp [h0, dot]
  · by_cases h1 : i = 1
    · simp [h0, h1, dot]
    · by_cases h2 : i = N - 1
      · subst h2
        have hN2 : N ≠ 2 := by omega
        simp [h0, hN2, dot]
      · simp [h0, h1, h2, dot]

/-- C2: for a length-3 kernel, `shift` on a vector of length `N >= 3` first
restricts the kernel (entry `s[0]` at position 0, `s[1]` at position 1,
`s[2]` at position `N-1`, zero elsewhere) and then computes the circular
convolution `shifted[i] = sum_j w[j] * ker[(i - j) mod N]`; for `N < 3` the
same convolution uses the kernel unmodified. -/
theorem shift_conv_spec (w_gt s_t : List ℝ) (hs : s_t.length = 3) :
    (3 ≤ w_gt.length →
      shift w_gt s_t = circ_conv_spec w_gt (kernel_effective_spec w_gt.length s_t)) ∧
    (w_gt.length < 3 → shift w_gt s_t = circ_conv_spec w_gt s_t) := by
  constructor
  · intro hN
    simp only [shift, circ_conv_spec]
    rw [if_pos hN, restricted_kernel_eq_spec _ _ hs]
  · intro hN
    simp only [shift, circ_conv_spec]
    rw [if_neg (not_le.mpr hN)]

/-- Witness for C2 on a length-4 weight vector. -/
theorem shift_conv_spec_witness :
    ([1, 0, 0] : List ℝ).length = 3 ∧
    ((3 ≤ ([5, 6, 7, 8] : List ℝ).length →
        shift ([5, 6, 7, 8] : List ℝ) [1, 0, 0] =
          circ_conv_spec ([5, 6, 7, 8] : List ℝ)
            (kernel_effective_spec ([5, 6, 7, 8] : List ℝ).length [1, 0, 0])) ∧
      (([5, 6, 7, 8] : List ℝ).length < 3 →
        shift ([5, 6, 7, 8] : List ℝ) [1, 0, 0] =
          circ_conv_spec ([5, 6, 7, 8] : List ℝ) [1, 0, 0])) :=
  ⟨rfl, shift_conv_spec [5, 6, 7, 8] [1, 0, 0] rfl⟩

/-- Counterexample to C3 as stated: for `w = [0,0,1,0,0]` (N = 5) and kernel
`[1,0,0]`, the output of `shift` at the interior position 2 is 1, not 0 — the
*restricted kernel* vanishes on the interior, but the convolution output does
not. -/
theorem shift_interior_cex :
    ¬ (∀ i, 2 ≤ i → i ≤ ([0, 0, 1, 0, 0] : List ℝ).length - 2 →
        (shift ([0, 0, 1, 0, 0] : List ℝ) [1, 0, 0]).getD i 0 = 0) := by
  intro hall
  have h2 := hall 2 (by norm_num) (by simp)
  have hval : (shift ([0, 0, 1, 0, 0] : List ℝ) [1, 0, 0]).getD 2 0 = 1 := by
    norm_num [shift, restricted_kernel, restrictionList, modIdx, dot,
      List.range_succ, Int.toNat]
  rw [hval] at h2
  exact one_ne_zero h2

/-- C3 (amended): for `N >= 5` and a length-3 kernel, the *restricted kernel*
`rT * s` used inside `shift` is exactly zero at every interior position `i`
with `2 <= i <= N - 2` (the convolution output itself need not vanish there). -/
theorem restricted_kernel_interior_zero (s : List ℝ) (N i : ℕ) (hs : s.length = 3)
    (hN : 5 ≤ N) (h2 : 2 ≤ i) (hi : i ≤ N - 2) :
    (restricted_kernel N s).getD i 0 = 0 := by
  obtain ⟨a, b, c, rfl⟩ := List.length_eq_three.mp hs
  have hiN : i < N := by omega
  simp only [restricted_kernel, restrictionList, List.map_map]
  rw [getD_map_range _ _ hiN]
  have h0 : i ≠ 0 := by omega
  have h1 : i ≠ 1 := by omega
  have hN1 : i ≠ N - 1 := by omega
  simp [Function.comp, h0, h1, hN1, dot]

/-- Witness for the amended C3 at N = 5, i = 2. -/
theorem restricted_kernel_interior_zero_witness :
    ([1, 0, 0] : List ℝ).length = 3 ∧ 5 ≤ 5 ∧ 2 ≤ 2 ∧ 2 ≤ 5 - 2 ∧
    (restricted_kernel 5 ([1, 0, 0] : List ℝ)).getD 2 0 = 0 :=
  ⟨rfl, by norm_num, by norm_num, by norm_num,
    restricted_kernel_interior_zero [1, 0, 0] 5 2 rfl (by norm_num) (by norm_num)
      (by norm_num)⟩

lemma range_map_sum {M : Type} [AddCommMonoid M] (f : ℕ → M) (n : ℕ) :
    ((List.range n).map f).sum = ∑ i in Finset.range n, f i := by
  induction n with
  | zero => simp
  | succ n ih =>
    rw [List.range_succ, List.map_append, List.sum_append, Finset.sum_range_succ, ih]
    simp

lemma list_sum_getD {M : Type} [AddCommMonoid M] (l : List M) :
    l.sum = ∑ i in Finset.range l.length, l.getD i 0 := by
  induction l with
  | nil => simp
  | cons a t ih =>
    rw [List.sum_cons, List.length_cons, Finset.sum_range_succ']
    simp only [List.getD_cons_succ, List.getD_cons_zero]
    rw [← ih]
    exact add_comm _ _

lemma modIdx_lt (i j N : ℕ) (hN : 0 < N) : modIdx i j N < N := by
  have hNz : ((N : Int)) ≠ 0 := by exact_mod_cast hN.ne'
  have h0 : (0 : Int) ≤ ((i : Int) - (j : Int)) % (N : Int) := Int.emod_nonneg _ hNz
  have h1 : ((i : Int) - (j : Int)) % (N : Int) < (N : Int) :=
    Int.emod_lt_of_pos _ (by exact_mod_cast hN)
  simp only [modIdx]
  omega

lemma sum_range_modIdx {M : Type} [AddCommMonoid M] (f : ℕ → M) (j N : ℕ)
    (hN : 0 < N) :
    ∑ i in Finset.range N, f (modIdx i j N) = ∑ i in Finset.range N, f i := by
  have hNz : ((N : Int)) ≠ 0 := by exact_mod_cast hN.ne'
  refine Finset.sum_nbij' (fun i => modIdx i j N)
    (fun i => (((i : Int) + (j : Int)) % (N : Int)).toNat) ?_ ?_ ?_ ?_ ?_
  · intro a ha
    rw [Finset.mem_range] at ha ⊢
    exact modIdx_lt a j N hN
  · intro a ha
    rw [Finset.mem_range] at ha ⊢
    show (((a : Int) + (j : Int)) % (N : Int)).toNat < N
    have h0 : (0 : Int) ≤ ((a : Int) + (j : Int)) % (N : Int) := Int.emod_nonneg _ hNz
    have h1 : ((a : Int) + (j : Int)) % (N : Int) < (N : Int) :=
      Int.emod_lt_of_pos _ (by exact_mod_cast hN)
    omega
  · intro a ha
    rw [Finset.mem_range] at ha
    have h0 : (0 : Int) ≤ ((a : Int) - (j : Int)) % (N : Int) := Int.emod_nonneg _ hNz
    simp only [modIdx]
    rw [Int.toNat_of_nonneg h0, Int.add_emod, Int.emod_emod_of_dvd _ dvd_rfl,
      ← Int.add_emod, sub_add_cancel,
      Int.emod_eq_of_lt (Int.natCast_nonneg a) (by exact_mod_cast ha)]
    omega
  · intro a ha
    rw [Finset.mem_range] at ha
    have h0 : (0 : Int) ≤ ((a : Int) + (j : Int)) % (N : Int) := Int.emod_nonneg _ hNz
    simp only [modIdx]
    rw [Int.toNat_of_nonneg h0, Int.sub_emod, Int.emod_emod_of_dvd _ dvd_rfl,
      ← Int.sub_emod, add_sub_cancel_right,
      Int.emod_eq_of_lt (Int.natCast_nonneg a) (by exact_mod_cast ha)]
    omega
  · intro a ha
    rfl

lemma restricted_kernel_length {K : Type} [CommRing K] (N : ℕ) (s : List K) :
    (restricted_kernel N s).length = N := by
  simp [restricted_kernel, restrictionList]

lemma restricted_kernel_sum {K : Type} [CommRing K] (N : ℕ) (s : List K)
    (hN : 3 ≤ N) (hs : s.length = 3) :
    (restricted_kernel N s).sum = s.getD 0 0 + s.getD 1 0 + s.getD 2 0 := by
  rw [restricted_kernel_eq_spec _ _ hs]
  obtain ⟨a, b, c, rfl⟩ := List.length_eq_three.mp hs
  simp only [kernel_effective_spec]
  rw [range_map_sum]
  have hsplit : ∀ i ∈ Finset.range N,
      (if i = 0 then ([a, b, c] : List K).getD 0 0
       else if i = 1 then ([a, b, c] : List K).getD 1 0
       else if i = N - 1 then ([a, b, c] : List K).getD 2 0 else 0) =
      ((if i = 0 then a else 0) + (if i = 1 then b else 0) +
        (if i = N - 1 then c else 0)) := by
    intro i hi
    by_cases h0 : i = 0
    · subst h0
      have hN1 : (0 : ℕ) ≠ N - 1 := by omega
      simp [hN1]
    · by_cases h1 : i = 1
      · subst h1
        have hN1 : (1 : ℕ) ≠ N - 1 := by omega
        simp [hN1]
      · by_cases h2 : i = N - 1
        · subst h2
          simp [h0, h1]
        · simp [h0, h1, h2]
  rw [Finset.sum_congr rfl hsplit, Finset.sum_add_distrib, Finset.sum_add_distrib,
    Finset.sum_ite_eq' (Finset.range N) 0 (fun _ => a),
    Finset.sum_ite_eq' (Finset.range N) 1 (fun _ => b),
    Finset.sum_ite_eq' (Finset.range N) (N - 1) (fun _ => c)]
  have m0 : (0 : ℕ) ∈ Finset.range N := Finset.mem_range.mpr (by omega)
  have m1 : (1 : ℕ) ∈ Finset.range N := Finset.mem_range.mpr (by omega)
  have m2 : N - 1 ∈ Finset.range N := Finset.mem_range.mpr (by omega)
  simp [m0, m1, m2]

/-- C9: for `N >= 3` and a length-3 kernel, the entries of `shift w s` sum to
`(sum of w) * (s[0] + s[1] + s[2])`; in particular if both sum to 1 the output
still sums to 1 despite the zeroed interior kernel rows. -/
theorem shift_sum_preserved (w_gt s_t : List ℝ) (hw : 3 ≤ w_gt.length)
    (hs : s_t.length = 3) :
    (shift w_gt s_t).sum =
        w_gt.sum * (s_t.getD 0 0 + s_t.getD 1 0 + s_t.getD 2 0) ∧
    (w_gt.sum = 1 → s_t.getD 0 0 + s_t.getD 1 0 + s_t.getD 2 0 = 1 →
      (shift w_gt s_t).sum = 1) := by
  have hN : 0 < w_gt.length := by omega
  have hmain : (shift w_gt s_t).sum =
      w_gt.sum * (s_t.getD 0 0 + s_t.getD 1 0 + s_t.getD 2 0) := by
    have hstep : shift w_gt s_t = (List.range w_gt.length).map (fun i =>
        ((List.range w_gt.length).map (fun jj =>
          w_gt.getD jj 0 *
            (restricted_kernel w_gt.length s_t).getD (modIdx i jj w_gt.length) 0)).sum) := by
      simp only [shift]
      rw [if_pos hw]
    rw [hstep, range_map_sum]
    calc
      ∑ i in Finset.range w_gt.length,
          ((List.range w_gt.length).map (fun jj =>
            w_gt.getD jj 0 *
              (restricted_kernel w_gt.length s_t).getD (modIdx i jj w_gt.length) 0)).sum
        = ∑ i in Finset.range w_gt.length, ∑ jj in Finset.range w_gt.length,
            w_gt.getD jj 0 *
              (restricted_kernel w_gt.length s_t).getD (modIdx i jj w_gt.length) 0 :=
          Finset.sum_congr rfl (fun i _ => range_map_sum _ _)
      _ = ∑ jj in Finset.range w_gt.length, ∑ i in Finset.range w_gt.length,
            w_gt.getD jj 0 *
              (restricted_kernel w_gt.length s_t).getD (modIdx i jj w_gt.length) 0 :=
          Finset.sum_comm
      _ = ∑ jj in Finset.range w_gt.length, w_gt.getD jj 0 *
            ∑ i in Finset.range w_gt.length,
              (restricted_kernel w_gt.length s_t).getD (modIdx i jj w_gt.length) 0 :=
          Finset.sum_congr rfl (fun jj _ => (Finset.mul_sum _ _ _).symm)
      _ = ∑ jj in Finset.range w_gt.length, w_gt.getD jj 0 *
            ∑ i in Finset.range w_gt.length,
              (restricted_kernel w_gt.length s_t).getD i 0 :=
          Finset.sum_congr rfl (fun jj _ => by
            rw [sum_range_modIdx (fun i =>
              (restricted_kernel w_gt.length s_t).getD i 0) jj w_gt.length hN])
      _ = (∑ jj in Finset.range w_gt.length, w_gt.getD jj 0) *
            ∑ i in Finset.range w_gt.length,
              (restricted_kernel w_gt.length s_t).getD i 0 :=
          (Finset.sum_mul _ _ _).symm
      _ = w_gt.sum * (restricted_kernel w_gt.length s_t).sum := by
          rw [← list_sum_getD]
          have hl := list_sum_getD (restricted_kernel w_gt.length s_t)
          rw [restricted_kernel_length] at hl
          rw [← hl]
      _ = w_gt.sum * (s_t.getD 0 0 + s_t.getD 1 0 + s_t.getD 2 0) := by
          rw [restricted_kernel_sum _ _ hw hs]
  exact ⟨hmain, fun h1 h2 => by rw [hmain, h1, h2, mul_one]⟩

/-- Witness for C9 on a concrete length-3 weight vector and kernel. -/
theorem shift_sum_preserved_witness :
    3 ≤ ([1, 0, 0] : List ℝ).length ∧ ([1, 0, 0] : List ℝ).length = 3 ∧
    ((shift ([1, 0, 0] : List ℝ) [1, 0, 0]).sum =
        ([1, 0, 0] : List ℝ).sum *
          (([1, 0, 0] : List ℝ).getD 0 0 + ([1, 0, 0] : List ℝ).getD 1 0 +
            ([1, 0, 0] : List ℝ).getD 2 0) ∧
      (([1, 0, 0] : List ℝ).sum = 1 →
        ([1, 0, 0] : List ℝ).getD 0 0 + ([1, 0, 0] : List ℝ).getD 1 0 +
            ([1, 0, 0] : List ℝ).getD 2 0 = 1 →
        (shift ([1, 0, 0] : List ℝ) [1, 0, 0]).sum = 1)) :=
  ⟨by norm_num, rfl, shift_sum_preserved [1, 0, 0] [1, 0, 0] (by norm_num) rfl⟩

lemma mapM_eq_some {α β : Type} (f : α → Option β) (g : α → β) :
    ∀ l : List α, (∀ a ∈ l, f a = some (g a)) → l.mapM f = some (l.map g)
  | [], _ => rfl
  | a :: t, h => by
    rw [List.mapM_cons, h a (List.mem_cons_self a t),
      mapM_eq_some f g t (fun x hx => h x (List.mem_cons_of_mem a hx))]
    rfl

lemma mapM_head_none {α β : Type} (f : α → Option β) (a : α) (t : List α)
    (h : f a = none) : (a :: t).mapM f = none := by
  rw [List.mapM_cons, h]
  rfl

lemma zipWith_self {α β : Type} (f : α → α → β) :
    ∀ l : List α, List.zipWith f l l = l.map (fun a => f a a)
  | [] => rfl
  | a :: t => by simp [zipWith_self f t]

lemma npDot_col {K : Type} [CommRing K] (u : List K) (m : List (List K)) :
    npDot u (NpKey.col m) = NpVal.arr [dot u (m.map (fun r => r.getD 0 0))] := by
  simp only [npDot, dot, List.zipWith_map_right]

lemma npNormSq_col {K : Type} [CommRing K] (m : List (List K))
    (hm : ∀ r ∈ m, r.length = 1) :
    npNormSq (NpKey.col m) =
      dot (m.map (fun r => r.getD 0 0)) (m.map (fun r => r.getD 0 0)) := by
  simp only [npNormSq, dot, List.zipWith_map, zipWith_self, List.map_map]
  apply congrArg List.sum
  apply List.map_congr_left
  intro r hr
  obtain ⟨x, rfl⟩ := List.length_eq_one.mp (hm r hr)
  simp

/-- C10: the `K(row)[0]` subscript in `content_focus` succeeds only when the
per-row score is an array with an entry at index 0: with the key passed as an
N-by-1 column the similarity is a length-1 array and `content_focus` returns
the weight vector (equal to the 1-D computation on the flattened key), while
with a plain 1-D key the score is a scalar and the index-0 access fails. -/
theorem content_focus_index_shape (m : List (List ℝ)) (k_t : List ℝ) (b_t : ℝ)
    (mem : List (List ℝ)) (hm : ∀ r ∈ m, r.length = 1) (hmem : mem ≠ []) :
    content_focus_np Real.sqrt Real.exp (NpKey.col m) b_t mem =
        some (content_focus Real.sqrt Real.exp (m.map (fun r => r.getD 0 0)) b_t mem) ∧
    content_focus_np Real.sqrt Real.exp (NpKey.oneD k_t) b_t mem = none := by
  constructor
  · have hrow : ∀ row ∈ mem,
        npIndex0 (npMap (fun c => Real.exp (b_t * c))
          (cosine_sim_np Real.sqrt row (NpKey.col m))) =
        some (Real.exp (b_t *
          cosine_sim Real.sqrt row (m.map (fun r => r.getD 0 0)))) := by
      intro row _
      simp only [cosine_sim_np]
      rw [npDot_col, npNormSq_col m hm]
      rfl
    simp only [content_focus_np]
    rw [mapM_eq_some _ _ mem hrow]
    rfl
  · obtain ⟨r, t, rfl⟩ := List.exists_cons_of_ne_nil hmem
    simp only [content_focus_np]
    rw [mapM_head_none]
    · rfl
    · rfl

/-- Witness for C10 with a 1-by-1 column key, a 1-D key and a one-row memory. -/
theorem content_focus_index_shape_witness :
    (∀ r ∈ ([[2]] : List (List ℝ)), r.length = 1) ∧ ([[3]] : List (List ℝ)) ≠ [] ∧
    (content_focus_np Real.sqrt Real.exp (NpKey.col [[2]]) 1 [[3]] =
        some (content_focus Real.sqrt Real.exp
          (([[2]] : List (List ℝ)).map (fun r => r.getD 0 0)) 1 [[3]]) ∧
      content_focus_np Real.sqrt Real.exp (NpKey.oneD [2]) 1 [[3]] = none) :=
  ⟨by simp, by simp, content_focus_index_shape [[2]] [2] 1 [[3]] (by simp) (by simp)⟩

end DiffMem
